import Mathlib

/-!
Verification of the jmuxer core (`src/jmuxer.js`) against its specification.

The JavaScript methods are embedded shallowly: instance state that a method
reads or writes (`frameDuration`, `options.clearBuffer`, `options.mode`,
`kfCounter`, `kfPosition`) is passed and returned explicitly; JavaScript
numbers holding nonnegative integral time units are modelled as `Nat`
(`duration / N | 0` is `Nat` floor division, exact for the ToInt32-representable
range of nonnegative values), and presentation positions in seconds
(`kfPosition` entries, `currentTime`) as `ℚ`, since the source divides by 1000
without truncation.
-/

/-- A parsed H.264 NAL unit as the assembly loop of `getVideoFrames` observes
it: the attributes `isvcl` and `isfmb` are set by `H264Parser.parseHeader` /
the `NALU` class (modules outside this repository's files), and
`isKeyframe` is the `NALU.isKeyframe()` predicate.  `tag` stands for the unit's
payload bytes, which the loop moves around but never inspects. -/
structure NALUnit where
  isvcl : Bool
  isKeyframe : Bool
  isfmb : Bool
  tag : Nat
  deriving Repr, DecidableEq

/-- The loop state of the `for (let nalu of nalus)` loop in `getVideoFrames`:
the in-progress unit list, the closed frames (units with their `keyFrame`
flag), and the `keyFrame` / `vcl` accumulators. -/
structure AsmState where
  units : List NALUnit
  frames : List (List NALUnit × Bool)
  keyFrame : Bool
  vcl : Bool
  deriving Repr, DecidableEq

/-- The frame-boundary test of `getVideoFrames`:
`units.length && vcl && (unit.isfmb || !unit.isvcl)`. -/
def closesFrame (st : AsmState) (u : NALUnit) : Bool :=
  !st.units.isEmpty && st.vcl && (u.isfmb || !u.isvcl)

/-- One iteration of the assembly loop: close the in-progress frame when the
boundary test fires, then accumulate the unit. -/
def asmStep (st : AsmState) (u : NALUnit) : AsmState :=
  let st' : AsmState :=
    if closesFrame st u then
      { units := [], frames := st.frames ++ [(st.units, st.keyFrame)],
        keyFrame := false, vcl := false }
    else st
  { units := st'.units ++ [u], frames := st'.frames,
    keyFrame := st'.keyFrame || u.isKeyframe, vcl := st'.vcl || u.isvcl }

def asmInit : AsmState := ⟨[], [], false, false⟩

/-- The whole assembly loop over one chunk's NAL units. -/
def asmRun (nalus : List NALUnit) : AsmState :=
  nalus.foldl asmStep asmInit

/-- `frames[last].units = frames[last].units.concat(units)`: append trailing
units onto the last closed frame.  On an empty list (unreachable: the caller
guards with `frames.length`) it is the identity. -/
def extendLast : List (List NALUnit × Bool) → List NALUnit → List (List NALUnit × Bool)
  | [], _ => []
  | [(fus, fkf)], us => [(fus ++ us, fkf)]
  | f :: g :: rest, us => f :: extendLast (g :: rest) us

/-- The `if (units.length)` tail of `getVideoFrames`: a pending unit list is
emitted as its own frame when it holds VCL content or no frame was closed yet,
and otherwise appended onto the last closed frame. -/
def asmFinish (st : AsmState) : List (List NALUnit × Bool) :=
  if st.units.isEmpty then st.frames
  else if st.vcl || st.frames.isEmpty then st.frames ++ [(st.units, st.keyFrame)]
  else extendLast st.frames st.units

/-- The frame-assembly phase of `getVideoFrames` (lines 123-151). -/
def assembleFrames (nalus : List NALUnit) : List (List NALUnit × Bool) :=
  asmFinish (asmRun nalus)

/-- A video frame after duration assignment: `{units, keyFrame, duration}`. -/
structure VideoFrame where
  units : List NALUnit
  keyFrame : Bool
  duration : Nat
  deriving Repr, DecidableEq

/-- The `frames.map((frame) => …)` pass of `getVideoFrames` (lines 155-165):
assign `fd` (plus one while the remainder `tt` lasts), increment `kfCounter`
per frame, and on a keyframe (with `clearBuffer` set) push
`(kfCounter * fd) / 1000` onto `kfPosition`.  Returns the finished frames, the
new `kfCounter` and the new `kfPosition`. -/
def vfLoop (fd : Nat) (clearBuffer : Bool) :
    List (List NALUnit × Bool) → Nat → Nat → List ℚ → List VideoFrame × Nat × List ℚ
  | [], _, kfCounter, kfPosition => ([], kfCounter, kfPosition)
  | (us, kf) :: rest, tt, kfCounter, kfPosition =>
    let d : Nat := if 0 < tt then fd + 1 else fd
    let tt' : Nat := if 0 < tt then tt - 1 else tt
    let kfCounter' : Nat := kfCounter + 1
    let kfPosition' : List ℚ :=
      if kf && clearBuffer then kfPosition ++ [((kfCounter' : ℚ) * (fd : ℚ)) / 1000]
      else kfPosition
    let r := vfLoop fd clearBuffer rest tt' kfCounter' kfPosition'
    (⟨us, kf, d⟩ :: r.1, r.2)

/-- `getVideoFrames(nalus, duration)` (lines 115-168).  `frameDuration` is the
fps-derived fallback `this.frameDuration`; `clearBuffer`, `kfCounter` and
`kfPosition` are the instance fields the method reads and writes.  A chunk
duration of 0 models an absent (falsy) `duration`. -/
def getVideoFrames (frameDuration : Nat) (clearBuffer : Bool)
    (kfCounter : Nat) (kfPosition : List ℚ)
    (nalus : List NALUnit) (duration : Nat) : List VideoFrame × Nat × List ℚ :=
  let frames := assembleFrames nalus
  let fd : Nat := if duration ≠ 0 then duration / frames.length else frameDuration
  let tt : Nat := if duration ≠ 0 then duration - fd * frames.length else 0
  vfLoop fd clearBuffer frames tt kfCounter kfPosition

/-- An audio frame: one ADTS access unit (`units`, payload bytes) with its
assigned duration. -/
structure AudioFrame where
  units : List Nat
  duration : Nat
  deriving Repr, DecidableEq

/-- The duration-assignment pass of `getAudioFrames` (lines 180-186), the same
`fd` / `tt` scheme as for video. -/
def aacDurLoop (fd : Nat) : List (List Nat) → Nat → List AudioFrame
  | [], _ => []
  | u :: rest, tt =>
    ⟨u, if 0 < tt then fd + 1 else fd⟩ ::
      aacDurLoop fd rest (if 0 < tt then tt - 1 else tt)

/-- `getAudioFrames(aacFrames, duration)` (lines 170-188): one frame per AAC
access unit, durations distributed as for video. -/
def getAudioFrames (frameDuration : Nat) (aacFrames : List (List Nat))
    (duration : Nat) : List AudioFrame :=
  let fd : Nat := if duration ≠ 0 then duration / aacFrames.length else frameDuration
  let tt : Nat := if duration ≠ 0 then duration - fd * aacFrames.length else 0
  aacDurLoop fd aacFrames tt

/-- `options.mode`: 'both', 'audio' or 'video'. -/
inductive Mode
  | video
  | audio
  | both
  deriving Repr, DecidableEq

/-- `getSafeClearOffsetOfBuffer(offset)` (lines 253-271).  Returns the computed
`maxLimit` and the pruned `kfPosition`.  The JS truthiness tests are explicit:
`(mode === 'audio' && offset) || 0` is `offset` in audio mode (also when
`offset` is 0) and `0` otherwise; the scan loop stops at the first entry
`>= offset`, so `adjacentOffset` is the last entry of the longest prefix of
entries `< offset`, and `if (adjacentOffset)` asks that it exists and is
nonzero; inside `filter`, `maxLimit` ends as the last entry `< adjacentOffset`
when one exists. -/
def getSafeClearOffsetOfBuffer (mode : Mode) (kfPosition : List ℚ) (offset : ℚ) :
    ℚ × List ℚ :=
  let maxLimit : ℚ := if mode = Mode.audio then offset else 0
  let adjacentOffset : Option ℚ :=
    (kfPosition.takeWhile (fun k => decide (k < offset))).getLast?
  match adjacentOffset with
  | some a =>
    if a ≠ 0 then
      (((kfPosition.filter (fun k => decide (k < a))).getLast?).getD maxLimit,
        kfPosition.filter (fun k => decide (a ≤ k)))
    else (maxLimit, kfPosition)
  | none => (maxLimit, kfPosition)

/-- The muxer state that `feed` reads and (through `getVideoFrames`) writes. -/
structure MuxState where
  frameDuration : Nat
  clearBuffer : Bool
  kfCounter : Nat
  kfPosition : List ℚ
  deriving Repr, DecidableEq

/-- One input chunk as `feed` sees it after scanning: the `video` field carries
the NAL units `H264Parser.extractNALu` found (the scanner itself is outside
this repository's files; a present-but-unparseable buffer yields `some []`),
`audio` likewise the ADTS access units, and `duration` is
`parseInt(data.duration)` with 0 for an absent or falsy duration. -/
structure ChunkData where
  video : Option (List NALUnit)
  audio : Option (List (List Nat))
  duration : Nat
  deriving Repr, DecidableEq

/-- What one `feed` call does: `ignored` is the silent `if (!data) return`,
`invalidInput` the `debug.error(…)` rejection, `remuxed` the call into
`remuxController.remux(chunks)` with the assembled frames. -/
inductive FeedResult
  | ignored
  | invalidInput
  | remuxed (video : List VideoFrame) (audio : List AudioFrame)
  deriving Repr, DecidableEq

/-- `feed(data)` (lines 83-113). -/
def feed (st : MuxState) (data : Option ChunkData) : FeedResult × MuxState :=
  match data with
  | none => (FeedResult.ignored, st)
  | some d =>
    let vstep : Bool × List VideoFrame × MuxState :=
      match d.video with
      | some slices =>
        if 0 < slices.length then
          let r := getVideoFrames st.frameDuration st.clearBuffer
            st.kfCounter st.kfPosition slices d.duration
          (true, r.1, { st with kfCounter := r.2.1, kfPosition := r.2.2 })
        else (false, [], st)
      | none => (false, [], st)
    let astep : Bool × List AudioFrame :=
      match d.audio with
      | some aacs =>
        if 0 < aacs.length then (true, getAudioFrames st.frameDuration aacs d.duration)
        else (false, [])
      | none => (false, [])
    if vstep.1 || astep.1 then (FeedResult.remuxed vstep.2.1 astep.2, vstep.2.2)
    else (FeedResult.invalidInput, vstep.2.2)

/-- A command the buffer layer issues to the media sink. -/
inductive SinkCmd
  | removeRange (upTo : ℚ)
  | detachTrack
  | endStream
  deriving Repr, DecidableEq

/-- Modelled from the spec: `BufferController.initCleanup` lives in
`controller/buffer.js`, which is not among this repository's files; per the
spec's Buffer Manager contract it instructs the sink to discard buffered media
strictly before the given offset (`removeRange`), before any further append
for that track is attempted. -/
def initCleanup (offset : ℚ) : List SinkCmd := [SinkCmd.removeRange offset]

/-- `onBufferError(data)` (lines 305-321), as the sink commands it issues:
on `QuotaExceeded` it runs `initCleanup(this.node.currentTime)` and returns;
otherwise it removes the failing track's source buffer when one is attached
and signals end-of-stream when none remains. -/
def onBufferError (name : String) (currentTime : ℚ)
    (sourceBufferCount : Nat) (hasTrackBuffer : Bool) : List SinkCmd :=
  if name = "QuotaExceeded" then initCleanup currentTime
  else
    let removed : Bool := decide (0 < sourceBufferCount) && hasTrackBuffer
    let count' : Nat := if removed then sourceBufferCount - 1 else sourceBufferCount
    (if removed then [SinkCmd.detachTrack] else []) ++
      (if count' = 0 then [SinkCmd.endStream] else [])

/-- Processing a sequence of video chunks `(nalus, duration)` through
`getVideoFrames`, threading `kfCounter` and `kfPosition`. -/
def processVideoChunks (frameDuration : Nat) (clearBuffer : Bool)
    (chunks : List (List NALUnit × Nat)) (kfCounter : Nat) (kfPosition : List ℚ) :
    Nat × List ℚ :=
  chunks.foldl
    (fun st c =>
      let r := getVideoFrames frameDuration clearBuffer st.1 st.2 c.1 c.2
      (r.2.1, r.2.2))
    (kfCounter, kfPosition)

/-- The per-frame duration `fd` that `getVideoFrames` resolves for a chunk. -/
def resolvedFd (frameDuration : Nat) (c : List NALUnit × Nat) : Nat :=
  if c.2 ≠ 0 then c.2 / (assembleFrames c.1).length else frameDuration


/-! ### Helper lemmas: frame assembly produces at least one frame -/

lemma asmStep_units_ne (st : AsmState) (u : NALUnit) : (asmStep st u).units ≠ [] := by
  simp [asmStep]

lemma foldl_asmStep_units_ne (xs : List NALUnit) (st : AsmState) (h : st.units ≠ []) :
    (xs.foldl asmStep st).units ≠ [] := by
  induction xs generalizing st with
  | nil => exact h
  | cons x xs ih => exact ih (asmStep st x) (asmStep_units_ne st x)

lemma asmRun_units_ne (nalus : List NALUnit) (h : nalus ≠ []) :
    (asmRun nalus).units ≠ [] := by
  cases nalus with
  | nil => exact absurd rfl h
  | cons x xs =>
    exact foldl_asmStep_units_ne xs (asmStep asmInit x) (asmStep_units_ne asmInit x)

lemma extendLast_length (fs : List (List NALUnit × Bool)) (us : List NALUnit) :
    (extendLast fs us).length = fs.length := by
  induction fs with
  | nil => rfl
  | cons f rest ih =>
    cases rest with
    | nil => obtain ⟨fus, fkf⟩ := f; simp [extendLast]
    | cons g rest' => simpa [extendLast] using ih

lemma assembleFrames_ne_nil (nalus : List NALUnit) (h : nalus ≠ []) :
    assembleFrames nalus ≠ [] := by
  have hu := asmRun_units_ne nalus h
  unfold assembleFrames asmFinish
  rw [if_neg (by simpa using hu)]
  split
  · simp
  · rename_i hcond
    intro hnil
    have hlen := extendLast_length (asmRun nalus).frames (asmRun nalus).units
    rw [hnil] at hlen
    simp only [List.length_nil] at hlen
    have hfe : (asmRun nalus).frames.isEmpty = true := by
      simpa [List.isEmpty_iff_length_eq_zero] using hlen.symm
    exact hcond (by simp [hfe])

/-! ### Helper lemmas: duration distribution -/

lemma vfLoop_sum_durations (fd : Nat) (cb : Bool) (frames : List (List NALUnit × Bool)) :
    ∀ (tt kc : Nat) (kp : List ℚ),
      (((vfLoop fd cb frames tt kc kp).1.map (fun f => f.duration)).sum
        = fd * frames.length + min tt frames.length) := by
  induction frames with
  | nil => intro tt kc kp; simp [vfLoop]
  | cons f rest ih =>
    intro tt kc kp
    obtain ⟨us, kf⟩ := f
    simp only [vfLoop, List.map_cons, List.sum_cons, List.length_cons, ih, Nat.mul_succ]
    by_cases htt : 0 < tt
    · simp only [if_pos htt]
      omega
    · simp only [if_neg htt]
      omega

lemma aacDurLoop_sum (fd : Nat) (l : List (List Nat)) :
    ∀ tt : Nat, ((aacDurLoop fd l tt).map (fun f => f.duration)).sum
      = fd * l.length + min tt l.length := by
  induction l with
  | nil => intro tt; simp [aacDurLoop]
  | cons u rest ih =>
    intro tt
    simp only [aacDurLoop, List.map_cons, List.sum_cons, List.length_cons, ih, Nat.mul_succ]
    by_cases htt : 0 < tt
    · simp only [if_pos htt]; omega
    · simp only [if_neg htt]; omega

/-- C1.  Duration conservation: for every input chunk carrying an explicit
positive integer duration `D` that is assembled into at least one frame
(video via `getVideoFrames` — any nonempty NAL-unit sequence — or audio via
`getAudioFrames` — any nonempty AAC access-unit sequence), the durations
assigned to the frames sum to exactly `D`. -/
theorem duration_conservation :
    (∀ (frameDuration : Nat) (clearBuffer : Bool) (kfCounter : Nat)
        (kfPosition : List ℚ) (nalus : List NALUnit) (D : Nat),
      nalus ≠ [] → 0 < D →
      (((getVideoFrames frameDuration clearBuffer kfCounter kfPosition nalus D).1.map
        (fun f => f.duration)).sum = D))
    ∧ (∀ (frameDuration : Nat) (aacFrames : List (List Nat)) (D : Nat),
      aacFrames ≠ [] → 0 < D →
      (((getAudioFrames frameDuration aacFrames D).map (fun f => f.duration)).sum = D)) := by
  constructor
  · intro fD cb kc kp nalus D hne hD
    have hN : (assembleFrames nalus).length ≠ 0 := by
      simpa [List.length_eq_zero] using assembleFrames_ne_nil nalus hne
    have hD0 : ¬ (D = 0) := by omega
    simp only [getVideoFrames, ne_eq, hD0, not_false_eq_true, if_true,
      vfLoop_sum_durations]
    have hdm := Nat.div_add_mod D (assembleFrames nalus).length
    have hcomm : D / (assembleFrames nalus).length * (assembleFrames nalus).length
        = (assembleFrames nalus).length * (D / (assembleFrames nalus).length) :=
      Nat.mul_comm _ _
    have hlt : D % (assembleFrames nalus).length < (assembleFrames nalus).length :=
      Nat.mod_lt D (by omega)
    omega
  · intro fD aacs D hne hD
    have hN : aacs.length ≠ 0 := by simpa [List.length_eq_zero] using hne
    have hD0 : ¬ (D = 0) := by omega
    simp only [getAudioFrames, ne_eq, hD0, not_false_eq_true, if_true, aacDurLoop_sum]
    have hdm := Nat.div_add_mod D aacs.length
    have hcomm : D / aacs.length * aacs.length = aacs.length * (D / aacs.length) :=
      Nat.mul_comm _ _
    have hlt : D % aacs.length < aacs.length := Nat.mod_lt D (by omega)
    omega

/-- Witness for C1 at a concrete chunk: a three-frame video chunk and a
three-unit audio chunk, each of duration 100, sum back to 100. -/
theorem duration_conservation_witness :
    (((getVideoFrames 33 true 0 []
        [⟨true, false, true, 1⟩, ⟨true, false, true, 2⟩, ⟨true, false, true, 3⟩] 100).1.map
      (fun f => f.duration)).sum = 100)
    ∧ (((getAudioFrames 33 [[1], [2], [3]] 100).map (fun f => f.duration)).sum = 100) :=
  ⟨duration_conservation.1 33 true 0 [] _ 100 (by decide) (by decide),
   duration_conservation.2 33 [[1], [2], [3]] 100 (by decide) (by decide)⟩

/-! ### C4: the shape of the distributed durations -/

lemma vfLoop_map_duration (fd : Nat) (cb : Bool) (frames : List (List NALUnit × Bool)) :
    ∀ (tt kc : Nat) (kp : List ℚ),
      ((vfLoop fd cb frames tt kc kp).1.map (fun f => f.duration))
        = (List.range frames.length).map (fun i => if i < tt then fd + 1 else fd) := by
  induction frames with
  | nil => intro tt kc kp; simp [vfLoop]
  | cons f rest ih =>
    intro tt kc kp
    obtain ⟨us, kf⟩ := f
    simp only [vfLoop, List.map_cons, List.length_cons, List.range_succ_eq_map,
      List.map_map, ih]
    congr 1
    apply List.map_congr_left
    intro i _
    simp only [Function.comp_apply]
    have hiff : (i < (if 0 < tt then tt - 1 else tt)) ↔ (Nat.succ i < tt) := by
      split <;> omega
    simp only [hiff]

/-- C4.  Remainder distribution shape: for a chunk with explicit positive
duration `D` assembled into `N ≥ 1` frames, every frame gets base duration
`D / N` (integer division) and exactly the first `D % N` frames in order get
one more; all later frames keep `D / N`. -/
theorem remainder_distribution_shape
    (frameDuration : Nat) (clearBuffer : Bool) (kfCounter : Nat) (kfPosition : List ℚ)
    (nalus : List NALUnit) (D : Nat) (hne : nalus ≠ []) (hD : 0 < D) :
    ((getVideoFrames frameDuration clearBuffer kfCounter kfPosition nalus D).1.map
        (fun f => f.duration))
      = (List.range (assembleFrames nalus).length).map
          (fun i => if i < D % (assembleFrames nalus).length
            then D / (assembleFrames nalus).length + 1
            else D / (assembleFrames nalus).length) := by
  have hN : (assembleFrames nalus).length ≠ 0 := by
    simpa [List.length_eq_zero] using assembleFrames_ne_nil nalus hne
  have hD0 : ¬ (D = 0) := by omega
  simp only [getVideoFrames, ne_eq, hD0, not_false_eq_true, if_true, vfLoop_map_duration]
  apply List.map_congr_left
  intro i _
  have hdm := Nat.div_add_mod D (assembleFrames nalus).length
  have hcomm : D / (assembleFrames nalus).length * (assembleFrames nalus).length
      = (assembleFrames nalus).length * (D / (assembleFrames nalus).length) :=
    Nat.mul_comm _ _
  have htt : D - D / (assembleFrames nalus).length * (assembleFrames nalus).length
      = D % (assembleFrames nalus).length := by omega
  rw [htt]

/-- Witness for C4: `duration = 100` with 3 assembled frames yields durations
`[34, 33, 33]` (the remainder of 1 goes to the first frame). -/
theorem remainder_distribution_shape_witness :
    ((getVideoFrames 33 true 0 []
        [⟨true, false, true, 1⟩, ⟨true, false, true, 2⟩, ⟨true, false, true, 3⟩] 100).1.map
      (fun f => f.duration)) = [34, 33, 33] :=
  (remainder_distribution_shape 33 true 0 []
    [⟨true, false, true, 1⟩, ⟨true, false, true, 2⟩, ⟨true, false, true, 3⟩] 100
    (by decide) (by decide)).trans (by decide)

/-! ### Assembly-loop invariants (C5, C6, C7) -/

/-- Along the assembly loop, `keyFrame` and `vcl` are the ORs of `isKeyframe`
and `isvcl` over the in-progress units, and every closed frame's flag is the
OR of `isKeyframe` over its units. -/
lemma foldl_asmStep_invariants (xs : List NALUnit) (st : AsmState)
    (hkf : st.keyFrame = st.units.any (fun u => u.isKeyframe))
    (hv : st.vcl = st.units.any (fun u => u.isvcl))
    (hfr : ∀ f ∈ st.frames, f.2 = f.1.any (fun u => u.isKeyframe)) :
    ((xs.foldl asmStep st).keyFrame
        = (xs.foldl asmStep st).units.any (fun u => u.isKeyframe))
    ∧ ((xs.foldl asmStep st).vcl = (xs.foldl asmStep st).units.any (fun u => u.isvcl))
    ∧ (∀ f ∈ (xs.foldl asmStep st).frames, f.2 = f.1.any (fun u => u.isKeyframe)) := by
  induction xs generalizing st with
  | nil => exact ⟨hkf, hv, hfr⟩
  | cons x xs ih =>
    simp only [List.foldl_cons]
    apply ih
    · by_cases hc : closesFrame st x = true
      · simp [asmStep, hc]
      · simp [asmStep, hc, hkf, List.any_append]
    · by_cases hc : closesFrame st x = true
      · simp [asmStep, hc]
      · simp [asmStep, hc, hv, List.any_append]
    · intro f hf
      by_cases hc : closesFrame st x = true
      · simp only [asmStep, hc, if_true] at hf
        rcases List.mem_append.mp hf with hmem | hmem
        · exact hfr f hmem
        · simp only [List.mem_singleton] at hmem
          subst hmem
          exact hkf
      · simp only [asmStep, hc, if_false, Bool.false_eq_true] at hf
        exact hfr f hf

lemma asmRun_invariants (nalus : List NALUnit) :
    ((asmRun nalus).keyFrame = (asmRun nalus).units.any (fun u => u.isKeyframe))
    ∧ ((asmRun nalus).vcl = (asmRun nalus).units.any (fun u => u.isvcl))
    ∧ (∀ f ∈ (asmRun nalus).frames, f.2 = f.1.any (fun u => u.isKeyframe)) :=
  foldl_asmStep_invariants nalus asmInit (by simp [asmInit]) (by simp [asmInit])
    (by simp [asmInit])

/-- C5.  Frame-boundary condition: at any point of the assembly loop (i.e.
after any processed prefix), the next unit closes the in-progress frame —
the closed-frame count grows by one — exactly when a VCL unit has been
accumulated into the in-progress unit list and the next unit is marked
first-macroblock-of-frame or is non-VCL. -/
theorem frame_boundary_condition (pre : List NALUnit) (u : NALUnit) :
    ((asmStep (asmRun pre) u).frames.length = (asmRun pre).frames.length + 1)
      ↔ (((asmRun pre).units.any (fun w => w.isvcl)) = true
          ∧ (u.isfmb = true ∨ u.isvcl = false)) := by
  have hv := (asmRun_invariants pre).2.1
  constructor
  · intro hlen
    by_cases hc : closesFrame (asmRun pre) u = true
    · have hcond := hc
      simp only [closesFrame, Bool.and_eq_true, Bool.or_eq_true, Bool.not_eq_true'] at hcond
      exact ⟨hv ▸ hcond.1.2, hcond.2⟩
    · simp only [asmStep, hc, if_false, Bool.false_eq_true] at hlen
      omega
  · rintro ⟨hvcl, hnext⟩
    have hne : ¬((asmRun pre).units.isEmpty = true) := by
      rcases List.any_eq_true.mp hvcl with ⟨w, hw, _⟩
      intro hemp
      rw [List.isEmpty_iff] at hemp
      simp [hemp] at hw
    have hc : closesFrame (asmRun pre) u = true := by
      simp only [closesFrame, Bool.and_eq_true, Bool.or_eq_true, Bool.not_eq_true',
        Bool.not_eq_true]
      refine ⟨⟨by simpa using hne, hv.trans hvcl⟩, hnext⟩
    simp [asmStep, hc]

/-! ### C6: chunk-end handling -/

/-- Along the assembly loop, the closed frames' units followed by the
in-progress units are exactly the processed prefix: no unit is dropped or
duplicated. -/
lemma foldl_asmStep_flatten (xs : List NALUnit) (st : AsmState) :
    (((xs.foldl asmStep st).frames.map Prod.fst).flatten ++ (xs.foldl asmStep st).units)
      = ((st.frames.map Prod.fst).flatten ++ st.units) ++ xs := by
  induction xs generalizing st with
  | nil => simp
  | cons x xs ih =>
    simp only [List.foldl_cons]
    rw [ih]
    have hstep : ((asmStep st x).frames.map Prod.fst).flatten ++ (asmStep st x).units
        = ((st.frames.map Prod.fst).flatten ++ st.units) ++ [x] := by
      by_cases hc : closesFrame st x = true
      · simp [asmStep, hc, List.flatten_append]
      · simp [asmStep, hc]
    rw [hstep]
    simp

lemma extendLast_flatten (fs : List (List NALUnit × Bool)) (us : List NALUnit)
    (h : fs ≠ []) :
    ((extendLast fs us).map Prod.fst).flatten = (fs.map Prod.fst).flatten ++ us := by
  induction fs with
  | nil => exact absurd rfl h
  | cons f rest ih =>
    cases rest with
    | nil => obtain ⟨fus, fkf⟩ := f; simp [extendLast]
    | cons g rest' =>
      simp only [extendLast, List.map_cons, List.flatten_cons, ih (by simp),
        List.append_assoc]

/-- No unit of the input chunk is dropped by frame assembly: the concatenation
of the assembled frames' unit lists is the input NAL-unit sequence. -/
lemma assembleFrames_flatten (nalus : List NALUnit) :
    ((assembleFrames nalus).map Prod.fst).flatten = nalus := by
  have h : ((asmRun nalus).frames.map Prod.fst).flatten ++ (asmRun nalus).units = nalus := by
    simpa [asmRun, asmInit] using foldl_asmStep_flatten nalus asmInit
  unfold assembleFrames asmFinish
  by_cases hemp : (asmRun nalus).units.isEmpty = true
  · rw [if_pos hemp]
    rw [List.isEmpty_iff] at hemp
    rw [hemp] at h
    simpa using h
  · rw [if_neg hemp]
    by_cases hcond : ((asmRun nalus).vcl || (asmRun nalus).frames.isEmpty) = true
    · rw [if_pos hcond]
      simpa [List.flatten_append] using h
    · rw [if_neg hcond]
      have hfne : (asmRun nalus).frames ≠ [] := fun hnil => hcond (by simp [hnil])
      rw [extendLast_flatten _ _ hfne]
      exact h

/-- C6 (counterexample to the claim as stated).  Two consecutive
first-macroblock VCL units: the chunk ends with the pending unit list `[v]`
while a VCL-bearing frame `([u], false)` was already emitted, so the claim as
stated dictates that `[v]` be appended onto that frame, yielding the single
frame `([u, v], false)`; the code instead emits `[v]` as its own frame. -/
theorem chunk_end_claim_counterexample :
    ((asmRun [⟨true, false, true, 1⟩, ⟨true, false, true, 2⟩]).units
        = [⟨true, false, true, 2⟩])
    ∧ ((asmRun [⟨true, false, true, 1⟩, ⟨true, false, true, 2⟩]).frames
        = [([⟨true, false, true, 1⟩], false)])
    ∧ (([([⟨true, false, true, 1⟩], false)] : List (List NALUnit × Bool)).any
        (fun f => f.1.any (fun w => w.isvcl)) = true)
    ∧ (assembleFrames [⟨true, false, true, 1⟩, ⟨true, false, true, 2⟩]
        ≠ [([⟨true, false, true, 1⟩, ⟨true, false, true, 2⟩], false)])
    ∧ (assembleFrames [⟨true, false, true, 1⟩, ⟨true, false, true, 2⟩]
        = [([⟨true, false, true, 1⟩], false), ([⟨true, false, true, 2⟩], false)]) := by
  decide

/-- Appending trailing units onto the last frame leaves every earlier frame
untouched (`dropLast` unchanged) and turns the last frame `(fus, fkf)` into
`(fus ++ us, fkf)`. -/
lemma extendLast_spec (fs : List (List NALUnit × Bool)) (us : List NALUnit)
    (h : fs ≠ []) :
    (extendLast fs us).dropLast = fs.dropLast
    ∧ (extendLast fs us).getLast? = fs.getLast?.map (fun f => (f.1 ++ us, f.2)) := by
  induction fs with
  | nil => exact absurd rfl h
  | cons f rest ih =>
    cases rest with
    | nil => obtain ⟨fus, fkf⟩ := f; simp [extendLast]
    | cons g rest' =>
      obtain ⟨ih1, ih2⟩ := ih (by simp)
      have hne : extendLast (g :: rest') us ≠ [] := by
        intro hnil
        have hl := extendLast_length (g :: rest') us
        rw [hnil] at hl
        simp at hl
      have hred : extendLast (f :: g :: rest') us = f :: extendLast (g :: rest') us := rfl
      constructor
      · rw [hred, List.dropLast_cons_of_ne_nil hne, ih1]
        exact (List.dropLast_cons_of_ne_nil (by simp)).symm
      · rw [hred]
        have h1 : (f :: extendLast (g :: rest') us).getLast?
            = (extendLast (g :: rest') us).getLast? := by
          cases hx : extendLast (g :: rest') us with
          | nil => exact absurd hx hne
          | cons y ys => rfl
        rw [h1, ih2]
        rfl

/-- C6 (amended).  When the chunk ends with unconsumed units, the trailing
unit list is emitted as its own frame if it contains VCL content or no frame
has been closed yet; otherwise (all-non-VCL trailing units with at least one
closed frame) it is appended onto the previously emitted frame's unit list —
the frame count and all earlier frames are unchanged and the last frame
becomes the old last frame with the trailing units concatenated, keeping its
flag; in every case no unit is dropped. -/
theorem chunk_end_handling (nalus : List NALUnit) :
    (((assembleFrames nalus).map Prod.fst).flatten = nalus)
    ∧ ((asmRun nalus).units ≠ [] →
        (((asmRun nalus).vcl = true ∨ (asmRun nalus).frames = []) →
          assembleFrames nalus
            = (asmRun nalus).frames ++ [((asmRun nalus).units, (asmRun nalus).keyFrame)])
        ∧ (((asmRun nalus).vcl = false ∧ (asmRun nalus).frames ≠ []) →
          (assembleFrames nalus).length = (asmRun nalus).frames.length
          ∧ (assembleFrames nalus).dropLast = (asmRun nalus).frames.dropLast
          ∧ (assembleFrames nalus).getLast?
              = (asmRun nalus).frames.getLast?.map
                  (fun f => (f.1 ++ (asmRun nalus).units, f.2)))) := by
  refine ⟨assembleFrames_flatten nalus, fun hne => ⟨fun hcase => ?_, fun hcase => ?_⟩⟩
  · unfold assembleFrames asmFinish
    rw [if_neg (by simpa using hne)]
    rcases hcase with hvcl | hfr
    · rw [if_pos (by simp [hvcl])]
    · rw [if_pos (by simp [hfr])]
  · have hred : assembleFrames nalus
        = extendLast (asmRun nalus).frames (asmRun nalus).units := by
      unfold assembleFrames asmFinish
      rw [if_neg (by simpa using hne), if_neg (by simp [hcase.1, hcase.2])]
    obtain ⟨hd, hg⟩ := extendLast_spec (asmRun nalus).frames (asmRun nalus).units hcase.2
    rw [hred]
    exact ⟨extendLast_length _ _, hd, hg⟩

/-- Witness for the amended C6 at a chunk whose two closed frames are followed
by a dangling non-VCL unit: the trailing SEI-like unit lands on the second
(last) closed frame — earlier frames untouched — and no unit is lost. -/
theorem chunk_end_handling_witness :
    ((((assembleFrames [⟨true, false, true, 1⟩, ⟨true, false, true, 2⟩,
          ⟨false, false, false, 9⟩]).map Prod.fst).flatten
        = [⟨true, false, true, 1⟩, ⟨true, false, true, 2⟩, ⟨false, false, false, 9⟩]))
    ∧ ((assembleFrames [⟨true, false, true, 1⟩, ⟨true, false, true, 2⟩,
          ⟨false, false, false, 9⟩]).length = 2)
    ∧ ((assembleFrames [⟨true, false, true, 1⟩, ⟨true, false, true, 2⟩,
          ⟨false, false, false, 9⟩]).dropLast = [([⟨true, false, true, 1⟩], false)])
    ∧ ((assembleFrames [⟨true, false, true, 1⟩, ⟨true, false, true, 2⟩,
          ⟨false, false, false, 9⟩]).getLast?
        = some ([⟨true, false, true, 2⟩, ⟨false, false, false, 9⟩], false)) :=
  ⟨(chunk_end_handling _).1,
    (((chunk_end_handling [⟨true, false, true, 1⟩, ⟨true, false, true, 2⟩,
        ⟨false, false, false, 9⟩]).2 (by decide)).2 (by decide)).1,
    ((((chunk_end_handling [⟨true, false, true, 1⟩, ⟨true, false, true, 2⟩,
        ⟨false, false, false, 9⟩]).2 (by decide)).2 (by decide)).2.1).trans (by decide),
    ((((chunk_end_handling [⟨true, false, true, 1⟩, ⟨true, false, true, 2⟩,
        ⟨false, false, false, 9⟩]).2 (by decide)).2 (by decide)).2.2).trans (by decide)⟩

/-! ### C7: the keyframe flag -/

lemma vfLoop_units_keyFrame (fd : Nat) (cb : Bool) (frames : List (List NALUnit × Bool)) :
    ∀ (tt kc : Nat) (kp : List ℚ),
      ((vfLoop fd cb frames tt kc kp).1.map (fun f => (f.units, f.keyFrame))) = frames := by
  induction frames with
  | nil => intro tt kc kp; simp [vfLoop]
  | cons f rest ih =>
    intro tt kc kp
    obtain ⟨us, kf⟩ := f
    simp only [vfLoop, List.map_cons, ih]

lemma extendLast_mem (fs : List (List NALUnit × Bool)) (us : List NALUnit)
    (g : List NALUnit × Bool) (hg : g ∈ extendLast fs us) :
    g ∈ fs ∨ ∃ f ∈ fs, g = (f.1 ++ us, f.2) := by
  induction fs with
  | nil => simp [extendLast] at hg
  | cons f rest ih =>
    cases rest with
    | nil =>
      obtain ⟨fus, fkf⟩ := f
      simp only [extendLast, List.mem_singleton] at hg
      exact Or.inr ⟨(fus, fkf), by simp, hg⟩
    | cons g' rest' =>
      simp only [extendLast, List.mem_cons] at hg
      rcases hg with hg | hg
      · exact Or.inl (by simp [hg])
      · rcases ih hg with h | ⟨f', hf', he⟩
        · exact Or.inl (List.mem_cons_of_mem _ h)
        · exact Or.inr ⟨f', List.mem_cons_of_mem _ hf', he⟩

/-- Every assembled frame's flag is the OR of `isKeyframe` over the units the
frame finally contains, provided keyframe units are VCL units (as in the
`NALU` classification, where `isKeyframe()` means the IDR slice type and the
slice types are exactly the VCL types). -/
lemma assembleFrames_keyFrame (nalus : List NALUnit)
    (hkv : ∀ u ∈ nalus, u.isKeyframe = true → u.isvcl = true) :
    ∀ f ∈ assembleFrames nalus, f.2 = f.1.any (fun u => u.isKeyframe) := by
  obtain ⟨hkf, hv, hfr⟩ := asmRun_invariants nalus
  have hflat : ((asmRun nalus).frames.map Prod.fst).flatten ++ (asmRun nalus).units
      = nalus := by
    simpa [asmRun, asmInit] using foldl_asmStep_flatten nalus asmInit
  have hsub : ∀ u ∈ (asmRun nalus).units, u ∈ nalus := by
    intro u hu
    rw [← hflat]
    exact List.mem_append.mpr (Or.inr hu)
  intro f hf
  unfold assembleFrames asmFinish at hf
  by_cases hemp : (asmRun nalus).units.isEmpty = true
  · rw [if_pos hemp] at hf
    exact hfr f hf
  · rw [if_neg hemp] at hf
    by_cases hcond : ((asmRun nalus).vcl || (asmRun nalus).frames.isEmpty) = true
    · rw [if_pos hcond] at hf
      rcases List.mem_append.mp hf with hmem | hmem
      · exact hfr f hmem
      · simp only [List.mem_singleton] at hmem
        subst hmem
        exact hkf
    · rw [if_neg hcond] at hf
      simp only [Bool.or_eq_true, not_or, Bool.not_eq_true] at hcond
      have hnokf : (asmRun nalus).units.any (fun u => u.isKeyframe) = false := by
        rw [List.any_eq_false]
        intro u hu
        intro hk
        have hvclu : u.isvcl = true := hkv u (hsub u hu) hk
        have : (asmRun nalus).units.any (fun w => w.isvcl) = true :=
          List.any_eq_true.mpr ⟨u, hu, hvclu⟩
        rw [← hv] at this
        exact absurd this (by simp [hcond.1])
      rcases extendLast_mem _ _ f hf with hmem | ⟨f', hf', he⟩
      · exact hfr f hmem
      · subst he
        simp only [List.any_append, hnokf, Bool.or_false]
        exact hfr f' hf'

/-- C7.  Keyframe flag correctness: for every frame produced by
`getVideoFrames` (frames extended by trailing units at chunk end included),
the `keyFrame` flag equals the OR of `isKeyframe` over all units the frame
finally contains — given that keyframe units are VCL units, as in the NALU
classification. -/
theorem keyframe_flag_correct (frameDuration : Nat) (clearBuffer : Bool)
    (kfCounter : Nat) (kfPosition : List ℚ) (nalus : List NALUnit) (duration : Nat)
    (hkv : ∀ u ∈ nalus, u.isKeyframe = true → u.isvcl = true) :
    ∀ f ∈ (getVideoFrames frameDuration clearBuffer kfCounter kfPosition
        nalus duration).1,
      f.keyFrame = f.units.any (fun u => u.isKeyframe) := by
  intro f hf
  have hcorr := vfLoop_units_keyFrame
    (if duration ≠ 0 then duration / (assembleFrames nalus).length else frameDuration)
    clearBuffer (assembleFrames nalus)
    (if duration ≠ 0
      then duration - (if duration ≠ 0
          then duration / (assembleFrames nalus).length else frameDuration)
        * (assembleFrames nalus).length
      else 0)
    kfCounter kfPosition
  have hpair : (f.units, f.keyFrame) ∈ assembleFrames nalus := by
    rw [← hcorr]
    exact List.mem_map.mpr ⟨f, hf, rfl⟩
  exact assembleFrames_keyFrame nalus hkv (f.units, f.keyFrame) hpair

/-- Witness for C7 at a concrete chunk: an SEI-like unit followed by an IDR
unit; the single assembled frame is flagged as a keyframe. -/
theorem keyframe_flag_correct_witness :
    (VideoFrame.mk [⟨false, false, false, 9⟩, ⟨true, true, true, 0⟩] true 1000).keyFrame
      = ([⟨false, false, false, 9⟩, ⟨true, true, true, 0⟩] : List NALUnit).any
          (fun u => u.isKeyframe) :=
  keyframe_flag_correct 33 true 0 [] [⟨false, false, false, 9⟩, ⟨true, true, true, 0⟩]
    1000 (by decide) _ (by decide)

/-! ### C2, C10: the safe clear offset -/

lemma two_le_length_of_mem_ne {α : Type} {l : List α} {a b : α}
    (ha : a ∈ l) (hb : b ∈ l) (hne : a ≠ b) : 2 ≤ l.length := by
  cases l with
  | nil => cases ha
  | cons c cs =>
    cases cs with
    | nil =>
      simp only [List.mem_singleton] at ha hb
      exact absurd (ha.trans hb.symm) hne
    | cons d ds => simp only [List.length_cons]; omega

lemma getSafeClearOffset_eq_none (mode : Mode) (kp : List ℚ) (p : ℚ)
    (hlast : (kp.takeWhile (fun k => decide (k < p))).getLast? = none) :
    getSafeClearOffsetOfBuffer mode kp p = ((if mode = Mode.audio then p else 0), kp) := by
  unfold getSafeClearOffsetOfBuffer
  rw [hlast]

lemma getSafeClearOffset_eq_some (mode : Mode) (kp : List ℚ) (p a : ℚ)
    (hlast : (kp.takeWhile (fun k => decide (k < p))).getLast? = some a) :
    getSafeClearOffsetOfBuffer mode kp p
      = if a ≠ 0 then
          ((kp.filter (fun k => decide (k < a))).getLast?.getD
              (if mode = Mode.audio then p else 0),
            kp.filter (fun k => decide (a ≤ k)))
        else ((if mode = Mode.audio then p else 0), kp) := by
  unfold getSafeClearOffsetOfBuffer
  rw [hlast]

/-- Whatever the inputs, the returned clear offset is either the mode-dependent
initial `maxLimit` or some ledger entry `m` lying strictly below another
ledger entry `a` that itself lies strictly below the playback position. -/
lemma getSafeClearOffset_fst_cases (mode : Mode) (kp : List ℚ) (p : ℚ) :
    (getSafeClearOffsetOfBuffer mode kp p).1 = (if mode = Mode.audio then p else 0)
    ∨ (∃ a m, a ∈ kp ∧ a < p ∧ m ∈ kp ∧ m < a
        ∧ (getSafeClearOffsetOfBuffer mode kp p).1 = m) := by
  cases hlast : (kp.takeWhile (fun k => decide (k < p))).getLast? with
  | none => rw [getSafeClearOffset_eq_none mode kp p hlast]; left; rfl
  | some a =>
    rw [getSafeClearOffset_eq_some mode kp p a hlast]
    by_cases ha0 : a = 0
    · rw [if_neg (by simpa using ha0)]
      left; rfl
    · rw [if_pos (by simpa using ha0)]
      have hatw : a ∈ kp.takeWhile (fun k => decide (k < p)) :=
        List.mem_of_mem_getLast? hlast
      have hakp : a ∈ kp := (List.takeWhile_prefix _).subset hatw
      have hap : a < p := by simpa using List.mem_takeWhile_imp hatw
      cases hm : (kp.filter (fun k => decide (k < a))).getLast? with
      | none => left; simp [hm]
      | some m =>
        right
        have hmf : m ∈ kp.filter (fun k => decide (k < a)) :=
          List.mem_of_mem_getLast? hm
        have hmkp : m ∈ kp := (List.mem_filter.mp hmf).1
        have hma : m < a := by simpa using (List.mem_filter.mp hmf).2
        exact ⟨a, m, hakp, hap, hmkp, hma, by simp [hm]⟩

/-- C2 (counterexample to the claim as stated).  In audio-only mode with the
ledger `[1, 2]` and playback position `3`, the function returns `1`, not the
raw playback position `3` the claim requires: the pruning pass overwrites the
audio-mode `maxLimit`. -/
theorem safe_clear_offset_claim_counterexample :
    (getSafeClearOffsetOfBuffer Mode.audio [1, 2] 3).1 = 1 ∧ (1 : ℚ) ≠ 3 := by
  constructor
  · simp only [getSafeClearOffsetOfBuffer]
    norm_num [List.takeWhile, List.filter]
  · norm_num

/-- C2 (amended).  In video/both mode, for a strictly ascending, nonnegative
ledger, if the entry of index `i + 1` is the greatest entry at or below the
playback position `p`, the returned clear offset is at most the entry of index
`i` — one full keyframe-to-keyframe span before the keyframe of the GOP
covering `p`.  In audio-only mode, when fewer than two ledger entries lie
strictly below `p` (in particular always in genuine audio-only operation,
where the ledger is empty), the raw playback position `p` itself is
returned. -/
theorem safe_clear_offset_amended :
    (∀ (mode : Mode) (kp : List ℚ) (p : ℚ) (i : Nat) (hi : i + 1 < kp.length),
      mode ≠ Mode.audio →
      List.Sorted (· < ·) kp →
      (∀ x ∈ kp, 0 ≤ x) →
      kp.get ⟨i + 1, hi⟩ ≤ p →
      (∀ (j : Nat) (hj : j < kp.length), i + 1 < j → p < kp.get ⟨j, hj⟩) →
      (getSafeClearOffsetOfBuffer mode kp p).1 ≤ kp.get ⟨i, by omega⟩)
    ∧ (∀ (kp : List ℚ) (p : ℚ),
      (kp.filter (fun x => decide (x < p))).length ≤ 1 →
      (getSafeClearOffsetOfBuffer Mode.audio kp p).1 = p) := by
  constructor
  · intro mode kp p i hi hmode hsort hnn h2 h3
    rcases getSafeClearOffset_fst_cases mode kp p with h | ⟨a, m, hakp, hap, hmkp, hma, h⟩
    · rw [h, if_neg hmode]
      exact hnn _ (kp.get_mem _ _)
    · rw [h]
      have hmono := hsort.get_strictMono
      obtain ⟨ja, hja⟩ := List.mem_iff_get.mp hakp
      obtain ⟨jm, hjm⟩ := List.mem_iff_get.mp hmkp
      have hjav : ja.val ≤ i + 1 := by
        by_contra hgt
        have := h3 ja.val ja.isLt (by omega)
        rw [show (⟨ja.val, ja.isLt⟩ : Fin kp.length) = ja from Fin.eta ja ja.isLt,
          hja] at this
        exact absurd (this.trans hap) (lt_irrefl p)
      have hjm_lt : jm < ja := by
        apply hmono.lt_iff_lt.mp
        rw [hja, hjm]
        exact hma
      have hje : jm.val ≤ i := by
        have : jm.val < ja.val := hjm_lt
        omega
      calc m = kp.get jm := hjm.symm
        _ ≤ kp.get ⟨i, by omega⟩ := hmono.monotone (by simpa [Fin.le_def] using hje)
  · intro kp p hcount
    cases hlast : (kp.takeWhile (fun k => decide (k < p))).getLast? with
    | none => rw [getSafeClearOffset_eq_none Mode.audio kp p hlast]; simp
    | some a =>
      rw [getSafeClearOffset_eq_some Mode.audio kp p a hlast]
      by_cases ha0 : a = 0
      · rw [if_neg (by simpa using ha0)]; simp
      · rw [if_pos (by simpa using ha0)]
        have hatw : a ∈ kp.takeWhile (fun k => decide (k < p)) :=
          List.mem_of_mem_getLast? hlast
        have hakp : a ∈ kp := (List.takeWhile_prefix _).subset hatw
        have hap : a < p := by simpa using List.mem_takeWhile_imp hatw
        cases hm : (kp.filter (fun k => decide (k < a))).getLast? with
        | none => simp [hm]
        | some m =>
          exfalso
          have hmf : m ∈ kp.filter (fun k => decide (k < a)) :=
            List.mem_of_mem_getLast? hm
          have hmkp : m ∈ kp := (List.mem_filter.mp hmf).1
          have hma : m < a := by simpa using (List.mem_filter.mp hmf).2
          have hmp : m ∈ kp.filter (fun x => decide (x < p)) :=
            List.mem_filter.mpr ⟨hmkp, by simpa using hma.trans hap⟩
          have hapf : a ∈ kp.filter (fun x => decide (x < p)) :=
            List.mem_filter.mpr ⟨hakp, by simpa using hap⟩
          have := two_le_length_of_mem_ne hmp hapf (ne_of_lt hma)
          omega

/-- Witness for the amended C2: ledger `[1, 2, 3]`, playback position `7/2`
(GOP keyframe `3`, index 2) — the clear offset stays at or below entry `2`
(index 1); and in audio mode with the empty ledger, position `5` is returned
unchanged. -/
theorem safe_clear_offset_amended_witness :
    (getSafeClearOffsetOfBuffer Mode.both [1, 2, 3] (7/2)).1
        ≤ ([1, 2, 3] : List ℚ).get ⟨1, by norm_num⟩
    ∧ (getSafeClearOffsetOfBuffer Mode.audio [] 5).1 = 5 :=
  ⟨safe_clear_offset_amended.1 Mode.both [1, 2, 3] (7/2) 1 (by norm_num)
      (by decide) (by norm_num [List.sorted_cons])
      (by intro x hx; fin_cases hx <;> norm_num)
      (by norm_num [List.get])
      (by intro j hj hgt; simp only [List.length_cons, List.length_nil] at hj; omega),
    safe_clear_offset_amended.2 [] 5 (by simp)⟩

/-- C10.  For every playback position `p ≥ 0`, every ledger state and every
mode, the value `getSafeClearOffsetOfBuffer` returns is at most `p`: the
computed clear offset never reaches beyond the current playback position. -/
theorem clear_offset_le_position (mode : Mode) (kp : List ℚ) (p : ℚ) (hp : 0 ≤ p) :
    (getSafeClearOffsetOfBuffer mode kp p).1 ≤ p := by
  rcases getSafeClearOffset_fst_cases mode kp p with h | ⟨a, m, _, hap, _, hma, h⟩
  · rw [h]
    by_cases hmode : mode = Mode.audio
    · rw [if_pos hmode]
    · rw [if_neg hmode]; exact hp
  · rw [h]
    exact le_of_lt (hma.trans hap)

/-- Witness for C10 at mode `both`, ledger `[1, 2]`, position `2`. -/
theorem clear_offset_le_position_witness :
    (getSafeClearOffsetOfBuffer Mode.both [1, 2] 2).1 ≤ 2 :=
  clear_offset_le_position Mode.both [1, 2] 2 (by norm_num)

/-! ### C3: ledger ordering -/

/-- C3 (counterexample to the claim as stated).  Two single-keyframe chunks
with different explicit durations: the first (duration 1000) appends the entry
`(1 * 1000) / 1000 = 1`; the second (duration 10) appends
`(2 * 10) / 1000 = 1/50` — the global `kfCounter` is multiplied by the *new*
chunk's per-frame duration, so the ledger `[1, 1/50]` is not ascending. -/
theorem ledger_ordering_claim_counterexample :
    ¬ List.Sorted (· < ·)
      (processVideoChunks 33 true
        [([⟨true, true, true, 0⟩], 1000), ([⟨true, true, true, 0⟩], 10)] 0 []).2 := by
  simp only [processVideoChunks, List.foldl_cons, List.foldl_nil, getVideoFrames,
    assembleFrames, asmRun, asmFinish, asmInit, asmStep, closesFrame, vfLoop,
    List.foldl]
  norm_num [List.sorted_cons]

lemma vfLoop_kp_invariant (fd : Nat) (hfd : 0 < fd) (cb : Bool)
    (frames : List (List NALUnit × Bool)) :
    ∀ (tt kc : Nat) (kp : List ℚ),
      List.Sorted (· < ·) kp →
      (∀ x ∈ kp, x < (((kc + 1 : Nat) : ℚ) * (fd : ℚ)) / 1000) →
      List.Sorted (· < ·) (vfLoop fd cb frames tt kc kp).2.2
      ∧ (∀ x ∈ (vfLoop fd cb frames tt kc kp).2.2,
          x < ((((vfLoop fd cb frames tt kc kp).2.1 + 1 : Nat) : ℚ) * (fd : ℚ)) / 1000) := by
  induction frames with
  | nil =>
    intro tt kc kp hs hb
    simp only [vfLoop]
    exact ⟨hs, hb⟩
  | cons f rest ih =>
    intro tt kc kp hs hb
    obtain ⟨us, kf⟩ := f
    simp only [vfLoop]
    have hstep : (((kc + 1 : Nat) : ℚ) * (fd : ℚ)) / 1000
        < (((kc + 1 + 1 : Nat) : ℚ) * (fd : ℚ)) / 1000 := by
      have hfdq : (0 : ℚ) < (fd : ℚ) := by exact_mod_cast hfd
      have hlt : ((kc + 1 : Nat) : ℚ) < ((kc + 1 + 1 : Nat) : ℚ) := by
        exact_mod_cast (by omega : kc + 1 < kc + 1 + 1)
      gcongr
    apply ih
    · by_cases hkc : (kf && cb) = true
      · simp only [hkc, if_true]
        rw [List.Sorted, List.pairwise_append]
        refine ⟨hs, List.pairwise_singleton _ _, ?_⟩
        intro x hx y hy
        simp only [List.mem_singleton] at hy
        subst hy
        exact hb x hx
      · simpa [hkc] using hs
    · intro x hx
      by_cases hkc : (kf && cb) = true
      · simp only [hkc, if_true, List.mem_append, List.mem_singleton] at hx
        rcases hx with hx | hx
        · exact (hb x hx).trans hstep
        · subst hx
          exact hstep
      · simp only [hkc, Bool.false_eq_true, if_false] at hx
        exact (hb x hx).trans hstep

lemma getVideoFrames_kp_invariant (fD : Nat) (cb : Bool) (nalus : List NALUnit)
    (D f₀ : Nat) (hf : resolvedFd fD (nalus, D) = f₀) (hf0 : 0 < f₀)
    (kc : Nat) (kp : List ℚ)
    (hs : List.Sorted (· < ·) kp)
    (hb : ∀ x ∈ kp, x < (((kc + 1 : Nat) : ℚ) * (f₀ : ℚ)) / 1000) :
    List.Sorted (· < ·) (getVideoFrames fD cb kc kp nalus D).2.2
    ∧ (∀ x ∈ (getVideoFrames fD cb kc kp nalus D).2.2,
        x < ((((getVideoFrames fD cb kc kp nalus D).2.1 + 1 : Nat) : ℚ) * (f₀ : ℚ)) / 1000) := by
  have hfd_eq : (if D ≠ 0 then D / (assembleFrames nalus).length else fD) = f₀ := hf
  simp only [getVideoFrames, hfd_eq]
  exact vfLoop_kp_invariant f₀ hf0 cb (assembleFrames nalus) _ kc kp hs hb

lemma processVideoChunks_invariant (fD : Nat) (cb : Bool) (f₀ : Nat) (hf0 : 0 < f₀) :
    ∀ (chunks : List (List NALUnit × Nat)) (kc : Nat) (kp : List ℚ),
      (∀ c ∈ chunks, resolvedFd fD c = f₀) →
      List.Sorted (· < ·) kp →
      (∀ x ∈ kp, x < (((kc + 1 : Nat) : ℚ) * (f₀ : ℚ)) / 1000) →
      List.Sorted (· < ·) (processVideoChunks fD cb chunks kc kp).2
      ∧ (∀ x ∈ (processVideoChunks fD cb chunks kc kp).2,
          x < ((((processVideoChunks fD cb chunks kc kp).1 + 1 : Nat) : ℚ) * (f₀ : ℚ)) / 1000) := by
  intro chunks
  induction chunks with
  | nil =>
    intro kc kp hres hs hb
    exact ⟨hs, hb⟩
  | cons c rest ih =>
    intro kc kp hres hs hb
    have hc : resolvedFd fD (c.1, c.2) = f₀ := hres c (by simp)
    obtain ⟨hs', hb'⟩ := getVideoFrames_kp_invariant fD cb c.1 c.2 f₀ hc hf0 kc kp hs hb
    simp only [processVideoChunks, List.foldl_cons]
    exact ih (getVideoFrames fD cb kc kp c.1 c.2).2.1
      (getVideoFrames fD cb kc kp c.1 c.2).2.2
      (fun c' hc' => hres c' (List.mem_cons_of_mem _ hc')) hs' hb'

/-- C3 (amended).  The Keyframe Position Ledger is strictly ascending after
every append provided all chunks resolve to one and the same positive
per-frame duration `fd` (entry values `(kfCounter * fd) / 1000` with the
global frame counter; with per-chunk durations that resolve to different `fd`
the entries can decrease, see the counterexample); every prune performed by
`getSafeClearOffsetOfBuffer` preserves strict ascent, and in video/both mode
(ledger entries being nonnegative) every remaining entry is at least the
computed clear offset. -/
theorem ledger_ordering_amended :
    (∀ (frameDuration : Nat) (clearBuffer : Bool)
        (chunks : List (List NALUnit × Nat)) (f₀ : Nat),
      0 < f₀ →
      (∀ c ∈ chunks, resolvedFd frameDuration c = f₀) →
      List.Sorted (· < ·) (processVideoChunks frameDuration clearBuffer chunks 0 []).2)
    ∧ (∀ (mode : Mode) (kp : List ℚ) (p : ℚ),
      List.Sorted (· < ·) kp →
      List.Sorted (· < ·) (getSafeClearOffsetOfBuffer mode kp p).2
      ∧ (mode ≠ Mode.audio → (∀ x ∈ kp, 0 ≤ x) →
          ∀ x ∈ (getSafeClearOffsetOfBuffer mode kp p).2,
            (getSafeClearOffsetOfBuffer mode kp p).1 ≤ x)) := by
  constructor
  · intro fD cb chunks f₀ hf0 hres
    exact (processVideoChunks_invariant fD cb f₀ hf0 chunks 0 [] hres
      (List.sorted_nil) (by simp)).1
  · intro mode kp p hsort
    cases hlast : (kp.takeWhile (fun k => decide (k < p))).getLast? with
    | none =>
      rw [getSafeClearOffset_eq_none mode kp p hlast]
      refine ⟨hsort, fun hmode hnn x hx => ?_⟩
      simpa [if_neg hmode] using hnn x hx
    | some a =>
      rw [getSafeClearOffset_eq_some mode kp p a hlast]
      by_cases ha0 : a = 0
      · rw [if_neg (by simpa using ha0)]
        refine ⟨hsort, fun hmode hnn x hx => ?_⟩
        simpa [if_neg hmode] using hnn x hx
      · rw [if_pos (by simpa using ha0)]
        refine ⟨List.Pairwise.filter _ hsort, fun hmode hnn x hx => ?_⟩
        have hax : a ≤ x := by simpa using (List.mem_filter.mp hx).2
        have hxkp : x ∈ kp := (List.mem_filter.mp hx).1
        cases hm : (kp.filter (fun k => decide (k < a))).getLast? with
        | none =>
          simp only [hm, Option.getD_none, if_neg hmode]
          exact hnn x hxkp
        | some m =>
          simp only [hm, Option.getD_some]
          have hma : m < a := by
            simpa using (List.mem_filter.mp (List.mem_of_mem_getLast? hm)).2
          exact le_of_lt (lt_of_lt_of_le hma hax)

/-- Witness for the amended C3: two keyframe chunks of duration 1000 that
both resolve to `fd = 1000` keep the ledger `[1, 2]` strictly ascending, and pruning the
ledger `[1, 2, 3]` at position `7/2` leaves it ascending with all remaining
entries at or above the returned offset. -/
theorem ledger_ordering_amended_witness :
    List.Sorted (· < ·)
      (processVideoChunks 33 true
        [([⟨true, true, true, 0⟩], 1000), ([⟨true, true, true, 0⟩], 1000)] 0 []).2
    ∧ List.Sorted (· < ·) (getSafeClearOffsetOfBuffer Mode.both [1, 2, 3] (7/2)).2 :=
  ⟨(ledger_ordering_amended.1 33 true
      [([⟨true, true, true, 0⟩], 1000), ([⟨true, true, true, 0⟩], 1000)] 1000
      (by decide) (by decide)),
    (ledger_ordering_amended.2 Mode.both [1, 2, 3] (7/2)
      (by norm_num [List.sorted_cons])).1⟩

/-! ### C8: invalid-chunk rejection; C9: quota recovery -/

/-- C8 (counterexample to the claim as stated).  A call with no data at all
returns through the silent `if (!data || !this.remuxController) return;`
guard: the state is unchanged and no remux happens, but contrary to the claim
no error is logged (`ignored`, not the `invalidInput` logging path). -/
theorem invalid_chunk_claim_counterexample :
    feed ⟨33, true, 0, []⟩ none = (FeedResult.ignored, ⟨33, true, 0, []⟩)
    ∧ FeedResult.ignored ≠ FeedResult.invalidInput := by
  exact ⟨rfl, by decide⟩

/-- C8 (amended).  A `feed` call with no data at all returns silently (no
logged error) with no remux and the muxer state unchanged; a call with a
chunk whose `video` and `audio` fields (if present) each yield zero parsed
units is rejected through the logged-error path, again with no remux and the
state (`kfCounter`, `kfPosition`) unchanged, so the stream keeps accepting
later chunks.  No path throws: `feed` is total. -/
theorem invalid_chunk_rejection (st : MuxState) (d : ChunkData) :
    (feed st none = (FeedResult.ignored, st))
    ∧ ((d.video = none ∨ d.video = some []) → (d.audio = none ∨ d.audio = some []) →
        feed st (some d) = (FeedResult.invalidInput, st)) := by
  refine ⟨rfl, fun hv ha => ?_⟩
  rcases hv with hv | hv <;> rcases ha with ha | ha <;>
    simp [feed, hv, ha]

/-- Witness for the amended C8: a chunk with an empty video unit list and no
audio field is rejected with the state untouched. -/
theorem invalid_chunk_rejection_witness :
    (feed ⟨33, true, 0, []⟩ none = (FeedResult.ignored, ⟨33, true, 0, []⟩))
    ∧ feed ⟨33, true, 0, []⟩ (some ⟨some [], none, 7⟩)
        = (FeedResult.invalidInput, ⟨33, true, 0, []⟩) :=
  ⟨(invalid_chunk_rejection ⟨33, true, 0, []⟩ ⟨some [], none, 7⟩).1,
    (invalid_chunk_rejection ⟨33, true, 0, []⟩ ⟨some [], none, 7⟩).2
      (Or.inr rfl) (Or.inl rfl)⟩

/-- C9.  Quota recovery: on a `QuotaExceeded` sink error the buffer layer
immediately runs `initCleanup` with the current playback position — a single
`removeRange` up to that position — and takes no step of the fatal path:
no source-buffer detach and no end-of-stream, whatever the number of attached
source buffers. -/
theorem quota_recovery (currentTime : ℚ) (sourceBufferCount : Nat)
    (hasTrackBuffer : Bool) :
    (onBufferError "QuotaExceeded" currentTime sourceBufferCount hasTrackBuffer
        = initCleanup currentTime)
    ∧ (initCleanup currentTime = [SinkCmd.removeRange currentTime])
    ∧ (SinkCmd.detachTrack
        ∉ onBufferError "QuotaExceeded" currentTime sourceBufferCount hasTrackBuffer)
    ∧ (SinkCmd.endStream
        ∉ onBufferError "QuotaExceeded" currentTime sourceBufferCount hasTrackBuffer) := by
  refine ⟨rfl, rfl, ?_, ?_⟩ <;> simp [onBufferError, initCleanup]
